import Mathlib

/-!
Verification of the git-client library: a shallow embedding in Lean 4 of the
process executor (`Git.exec`, `Git.cliOptionsToArgs`, `Git.mktreeBatch`) and the
in-memory tree model (`TreeObject`, `TreeRoot`) from the JavaScript source, with
theorems settling the specification's claims about them.

Strings manipulated character-by-character by the source (trimming, token
splitting, substring tests) are modelled as `List Char`; identifiers that are
only compared for equality (hashes, names, modes) stay `String`.
-/

set_option maxRecDepth 10000

/-! ## JavaScript string primitives used by the source -/

/-- Whitespace characters recognised by JavaScript `String.prototype.trim`
(the subset that can occur in git output). -/
def jsWhitespace (c : Char) : Bool :=
  c = ' ' || c = '\n' || c = '\t' || c = '\r' || c = '\x0b' || c = '\x0c'

/-- Leading-whitespace removal (JS `trimStart`). -/
def jsTrimStart (s : List Char) : List Char :=
  s.dropWhile jsWhitespace

/-- Trailing-whitespace removal (JS `trimEnd`). -/
def jsTrimEnd (s : List Char) : List Char :=
  (s.reverse.dropWhile jsWhitespace).reverse

/-- JS `String.prototype.trim`: removes whitespace at BOTH ends. -/
def jsTrim (s : List Char) : List Char :=
  jsTrimStart (jsTrimEnd s)

/-- `leadsWith needle hay`: `needle` occurs at the start of `hay`. -/
def leadsWith : List Char → List Char → Bool
  | [], _ => true
  | _ :: _, [] => false
  | c :: cs, d :: ds => c = d && leadsWith cs ds

/-- `occursIn needle hay`: `needle` occurs contiguously somewhere in `hay`
(JS `String.prototype.includes`). -/
def occursIn (needle hay : List Char) : Bool :=
  leadsWith needle hay ||
    (match hay with
     | [] => false
     | _ :: hs => occursIn needle hs)

/-! ## Option values and `Git.cliOptionsToArgs`

JavaScript option-map values as they reach the encoder: booleans, `null` /
`undefined`, strings, numbers, functions (which the encoder string-coerces),
and arrays of such scalars. -/

inductive Scalar where
  | sTrue
  | sFalse
  | sNull
  | sStr (s : List Char)
  | sNum (n : Int)
  | sFn (src : List Char)
deriving DecidableEq, Repr

inductive OptVal where
  | scalar (v : Scalar)
  | arr (elems : List Scalar)
deriving DecidableEq, Repr

/-- JS string coercion of a scalar value as applied when the encoder
concatenates or pushes it into argv. -/
def scalarToStr : Scalar → List Char
  | .sStr s => s
  | .sNum n => (toString n).toList
  | .sFn src => src
  | .sTrue => "true".toList
  | .sFalse => "false".toList
  | .sNull => "null".toList

/-- One `(key, value)` pair of `Git.cliOptionsToArgs`: single-character keys
get `-k` / `-k v` (two tokens), longer keys get `--key` / `--key=v`;
`false` / `null` / `undefined` emit nothing. -/
def encodeKV (key : List Char) (v : Scalar) : List (List Char) :=
  if key.length = 1 then
    match v with
    | .sTrue => [['-'] ++ key]
    | .sFalse => []
    | .sNull => []
    | w => [['-'] ++ key, scalarToStr w]
  else
    match v with
    | .sTrue => [['-', '-'] ++ key]
    | .sFalse => []
    | .sNull => []
    | w => [['-', '-'] ++ key ++ ['='] ++ scalarToStr w]

/-- `Git.cliOptionsToArgs`: encode each pair in iteration order, array values
emitting the encoding once per element. -/
def cliOptionsToArgs (opts : List (List Char × OptVal)) : List (List Char) :=
  opts.foldr
    (fun kv acc =>
      ((match kv.2 with
        | .scalar v => [v]
        | .arr l => l).foldr (fun v a => encodeKV kv.1 v ++ a) []) ++ acc)
    []

/-! A decoder for the encoder's output, used to state the round-trip claim. -/

/-- Split a character list at the first `'='`. -/
def splitAtEq : List Char → List Char × Option (List Char)
  | [] => ([], none)
  | c :: cs =>
      if c = '=' then ([], some cs)
      else
        let r := splitAtEq cs
        (c :: r.1, r.2)

/-- Whether a token begins with `'-'`. -/
def headDash (s : List Char) : Bool :=
  match s with
  | [] => false
  | c :: _ => c = '-'

/-- Decode one `--key=v` / `--key` token body. -/
def decodeDD (body : List Char) : List Char × OptVal :=
  match splitAtEq body with
  | (k, some v) => (k, .scalar (.sStr v))
  | (k, none) => (k, .scalar .sTrue)

/-- Decoder inverting `cliOptionsToArgs` on its unambiguous domain:
`--key=v` / `--key` tokens decode in place; `-k` consumes a following
non-dash token as its value, otherwise stands for `true`. -/
def decodeTokens : List (List Char) → List (List Char × OptVal)
  | [] => []
  | [t] =>
      if leadsWith ['-', '-'] t then [decodeDD (t.drop 2)]
      else if headDash t then [(t.drop 1, .scalar .sTrue)]
      else []
  | t :: v :: rest2 =>
      if leadsWith ['-', '-'] t then decodeDD (t.drop 2) :: decodeTokens (v :: rest2)
      else if headDash t then
        (if headDash v then (t.drop 1, .scalar .sTrue) :: decodeTokens (v :: rest2)
         else (t.drop 1, .scalar (.sStr v)) :: decodeTokens rest2)
      else decodeTokens (v :: rest2)

/-- Whether a character list contains `'='`. -/
def hasEqSign : List Char → Bool
  | [] => false
  | c :: cs => c = '=' || hasEqSign cs

/-- Keys on which the encoding is unambiguous: nonempty, a single-character key
is not `'-'` itself, and a longer key contains no `'='`. -/
def goodKey (k : List Char) : Bool :=
  match k with
  | [] => false
  | [c] => c != '-'
  | _ => !(hasEqSign k)

/-- Values on which the encoding is unambiguous: `true`, or a string that does
not begin with `'-'`. -/
def goodVal (v : OptVal) : Bool :=
  match v with
  | .scalar .sTrue => true
  | .scalar (.sStr s) => !(headDash s)
  | _ => false

/-! ## `Git.exec` argument scanning -/

/-- One positional argument of a `Git.exec` call. -/
inductive ExecArg where
  | str (s : List Char)
  | num (n : Int)
  | opts (o : List (List Char × OptVal))
  | arr (tokens : List (List Char))
  | null
deriving Repr

/-- JS truthiness as tested by `while (arg = args.shift())`. -/
def ExecArg.truthy : ExecArg → Bool
  | .str s => !s.isEmpty
  | .num n => n != 0
  | .opts _ => true
  | .arr _ => true
  | .null => false

/-- The `$`-prefixed keys `Git.exec` extracts from option maps as executor
controls (and deletes before CLI encoding), in source order. -/
def execControlKeys : List (List Char) :=
  ["$gitDir", "$workTree", "$indexFile", "$nullOnError", "$spawn", "$shell",
   "$cwd", "$env", "$preserveEnv", "$options", "$passthrough", "$wait"].map
    String.toList

/-- Accumulated result of the argument scan: the subcommand, the git argv
tokens, and the executor-control pairs extracted from option maps. -/
structure ScanState where
  command : Option (List Char)
  commandArgs : List (List Char)
  controls : List (List Char × OptVal)
deriving Repr

/-- Process one (truthy) argument: first string becomes the subcommand, later
strings and numbers are positional tokens, arrays are spliced raw, and maps
are split into executor controls and CLI-encoded git options. -/
def scanArg (st : ScanState) : ExecArg → ScanState
  | .str s =>
      match st.command with
      | none => { st with command := some s }
      | some _ => { st with commandArgs := st.commandArgs ++ [s] }
  | .num n => { st with commandArgs := st.commandArgs ++ [(toString n).toList] }
  | .arr l => { st with commandArgs := st.commandArgs ++ l }
  | .opts o =>
      let ctl := o.filter (fun kv => execControlKeys.contains kv.1)
      let rest := o.filter (fun kv => !execControlKeys.contains kv.1)
      { st with
          controls := st.controls ++ ctl
          commandArgs := st.commandArgs ++ cliOptionsToArgs rest }
  | .null => st

/-- The scan loop `while (arg = args.shift())`: stops at the first falsy
argument (or at the end of the list). -/
def scanArgs : List ExecArg → ScanState → ScanState
  | [], st => st
  | a :: rest, st => if a.truthy then scanArgs rest (scanArg st a) else st

/-- Scan a full `Git.exec` argument list from the initial state. -/
def buildScan (args : List ExecArg) : ScanState :=
  scanArgs args ⟨none, [], []⟩

/-! ## `Git.exec` capture mode -/

inductive ExecResult where
  | ok (stdout : List Char)
  | err (code : Int) (stderr : List Char)
  | nullResult
deriving DecidableEq, Repr

/-- The default (capture) execution mode of `Git.exec`: non-zero exit rejects
with a subprocess error (or resolves null under `nullOnError`); exit 0
resolves `stdout.trim()`. -/
def execCapture (nullOnError : Bool) (exitCode : Int) (stdout stderr : List Char) :
    ExecResult :=
  if exitCode ≠ 0 then
    if nullOnError then .nullResult else .err exitCode stderr
  else
    .ok (jsTrim stdout)

/-! ## `Git.mktreeBatch`: the persistent batched tree builder -/

/-- One tree entry submitted to `mktree`: `{mode, type, hash, name}`. -/
structure TreeChild where
  mode : String
  type : String
  hash : String
  name : String
deriving DecidableEq, Repr

/-- The stdin line `${mode} ${type} ${hash}\t${name}` for one entry. -/
def childLine (c : TreeChild) : List Char :=
  c.mode.toList ++ [' '] ++ c.type.toList ++ [' '] ++ c.hash.toList ++ ['\t'] ++
    c.name.toList

/-- JS `Array.prototype.join('\n')`. -/
def joinNl : List (List Char) → List Char
  | [] => []
  | [l] => l
  | l :: ls => l ++ '\n' :: joinNl ls

/-- The bytes one `mktreeBatch` call writes to the child's stdin: entry lines
joined by `\n`, terminated by `\n\n` (the batch delimiter). -/
def batchPayload (cs : List TreeChild) : List Char :=
  joinNl (cs.map childLine) ++ ['\n', '\n']

/-- One outstanding request in the FIFO queue, with its stdout/stderr
accumulation buffers. -/
structure BatchJob where
  id : Nat
  output : List Char
  errorBuf : List Char
deriving DecidableEq, Repr

/-- State of the batched builder: the FIFO of outstanding requests, the
requests resolved so far (in resolution order, with their values), the
requests rejected by a non-zero exit, and everything written to stdin. -/
structure BatchState where
  queue : List BatchJob
  resolved : List (Nat × List Char)
  rejected : List Nat
  stdinBuf : List Char
  nextId : Nat
deriving DecidableEq, Repr

def initBatch : BatchState := ⟨[], [], [], [], 0⟩

/-- Events driving `mktreeBatch`'s handlers: a caller submitting a batch, a
stdout/stderr data chunk from the child, or the child exiting. -/
inductive BatchEvent where
  | submit (children : List TreeChild)
  | stdoutChunk (s : List Char)
  | stderrChunk (s : List Char)
  | exited (code : Int)
deriving Repr

/-- One step of the `mktreeBatch` state machine, mirroring the source
handlers: a submit writes the payload and queues a job; a stdout chunk is
appended to the head job's buffer and, if the chunk contains a newline, the
head is popped and resolved with the joined trimmed buffer; a stderr chunk
feeds the head's error buffer; an exit resolves the head with its accumulated
output on code 0 and rejects it otherwise. -/
def stepBatch (st : BatchState) : BatchEvent → BatchState
  | .submit cs =>
      { st with
          stdinBuf := st.stdinBuf ++ batchPayload cs
          queue := st.queue ++ [⟨st.nextId, [], []⟩]
          nextId := st.nextId + 1 }
  | .stdoutChunk s =>
      match st.queue with
      | [] => st
      | j :: rest =>
          let out := j.output ++ s
          if s.contains '\n' then
            { st with queue := rest, resolved := st.resolved ++ [(j.id, jsTrim out)] }
          else
            { st with queue := ⟨j.id, out, j.errorBuf⟩ :: rest }
  | .stderrChunk s =>
      match st.queue with
      | [] => st
      | j :: rest => { st with queue := ⟨j.id, j.output, j.errorBuf ++ s⟩ :: rest }
  | .exited code =>
      match st.queue with
      | [] => st
      | j :: rest =>
          if code = 0 then
            { st with queue := rest, resolved := st.resolved ++ [(j.id, jsTrim j.output)] }
          else
            { st with queue := rest, rejected := st.rejected ++ [j.id] }

/-- Run the batched builder from its initial state over a list of events. -/
def runBatch (es : List BatchEvent) : BatchState :=
  es.foldl stepBatch initBatch

/-! ## The tree model: `TreeObject`

Association-list helpers standing in for JS object property maps (insertion
order preserved; assignment to an existing key updates in place, otherwise
appends). -/

def alookup {κ β : Type} [DecidableEq κ] : List (κ × β) → κ → Option β
  | [], _ => none
  | (k2, v) :: rest, k => if k2 = k then some v else alookup rest k

def aset {κ β : Type} [DecidableEq κ] (l : List (κ × β)) (k : κ) (v : β) :
    List (κ × β) :=
  if (alookup l k).isSome then
    l.map (fun kv => if kv.1 = k then (k, v) else kv)
  else
    l ++ [(k, v)]

def aremove {κ β : Type} [DecidableEq κ] (l : List (κ × β)) (k : κ) :
    List (κ × β) :=
  l.filter (fun kv => kv.1 ≠ k)

def akeys {κ β : Type} (l : List (κ × β)) : List κ := l.map (·.1)

/-- The canonical hash of the empty git tree. -/
def EMPTY_TREE_HASH : String := "4b825dc642cb6eb9a060e54bf8d69288fbee4904"

/-- A cached tree entry `{mode, type, hash}` as parsed from `ls-tree`. -/
structure CacheEntry where
  mode : String
  type : String
  hash : String
deriving DecidableEq, Repr

/-- An in-memory tree node or blob handle. A tree carries the `dirty` flag,
its `hash`, the hydrated base children (`none` until `_loadBaseChildren`
runs), and the overlay of pending changes chained above them (a `none` value
is a tombstone). -/
inductive GitNode : Type where
  | blob (hash : String) (mode : String) : GitNode
  | tree (dirty : Bool) (hash : String)
      (base : Option (List (String × GitNode)))
      (overlay : List (String × Option GitNode)) : GitNode

/-- The four instance fields of a `TreeObject`, as a record (used for the
receiver of the tree methods; `GitNode.tree` is the same data as a child
value). -/
structure TreeObj where
  dirty : Bool
  hash : String
  base : Option (List (String × GitNode))
  overlay : List (String × Option GitNode)

def TreeObj.toNode (t : TreeObj) : GitNode :=
  .tree t.dirty t.hash t.base t.overlay

def GitNode.isTree : GitNode → Bool
  | .tree _ _ _ _ => true
  | .blob _ _ => false

def GitNode.isBlob : GitNode → Bool
  | .blob _ _ => true
  | .tree _ _ _ _ => false

def GitNode.nodeHash : GitNode → String
  | .blob h _ => h
  | .tree _ h _ _ => h

/-- `child.dirty`: a blob handle has no `dirty` property (undefined, falsy). -/
def GitNode.nodeDirty : GitNode → Bool
  | .blob _ _ => false
  | .tree d _ _ _ => d

/-- `this._children[name]`: overlay first (a tombstone yields null), then the
hydrated base children via the prototype chain. -/
def childLookup (base : Option (List (String × GitNode)))
    (overlay : List (String × Option GitNode)) (k : String) : Option GitNode :=
  match alookup overlay k with
  | some v => v
  | none =>
      match base with
      | some b => alookup b k
      | none => none

/-- `for (name in this._children)`: own overlay keys in insertion order, then
unshadowed base keys from the prototype. -/
def forInKeys (base : Option (List (String × GitNode)))
    (overlay : List (String × Option GitNode)) : List String :=
  akeys overlay ++
    (match base with
     | some b => (akeys b).filter (fun k => !(alookup overlay k).isSome)
     | none => [])

/-- Errors surfaced by the tree operations. -/
inductive GitErr where
  | subprocess
  | badArgument
  | typeError
  | referenceError
  | fuelExhausted
deriving DecidableEq, Repr

/-- The object store / process-wide tree cache, mapping a tree hash to its
child entries in `ls-tree` order. -/
def Store : Type := List (String × List (String × CacheEntry))

/-- Modelled from the spec: the `createTree` / `createBlob` factory methods of
the Git client invoked during hydration are not present in the sources (they
belong to the missing `lib/Git.js`); per §4.6 of the spec each cached entry
becomes a fresh unhydrated TreeNode carrying the entry's hash (type `tree`)
or a BlobRef `{hash, mode}` (type `blob`). -/
def instantiateChild (e : CacheEntry) : GitNode :=
  if e.type = "tree" then .tree false e.hash none []
  else .blob e.hash e.mode

/-- `TreeObject._loadBaseChildren`: an absent or empty-tree hash installs an
empty base beneath the existing overlay; an already-hydrated node is left
alone; otherwise the children are read from the store (cache/`ls-tree`),
instantiated, and a fresh empty overlay is chained above them. The
`preloadChildren` flag only pre-populates the cache for interior subtrees and
does not change the hydrated result, so the store oracle absorbs it. -/
def loadBaseChildren (store : Store) (_preloadChildren : Bool) (t : TreeObj) :
    Except GitErr TreeObj :=
  if t.hash = "" ∨ t.hash = EMPTY_TREE_HASH then
    .ok { t with base := some [] }
  else if t.base.isSome then
    .ok t
  else
    match alookup store t.hash with
    | none => .error .subprocess
    | some entries =>
        .ok { t with
                base := some (entries.map (fun ne => (ne.1, instantiateChild ne.2)))
                overlay := [] }

/-- The hydration guard `if (this.hash && !this._baseChildren)` used by
`getChildren`, `getSubtree` and `merge`. -/
def hydrateIfNeeded (store : Store) (preloadChildren : Bool) (t : TreeObj) :
    Except GitErr TreeObj :=
  if t.hash ≠ "" ∧ t.base.isNone then loadBaseChildren store preloadChildren t
  else .ok t

/-- `TreeObject.deleteChild`: if a child is visible, set its overlay entry to
a tombstone and mark the node dirty. -/
def deleteChild (t : TreeObj) (name : String) : TreeObj :=
  match childLookup t.base t.overlay name with
  | some _ => { t with overlay := aset t.overlay name none, dirty := true }
  | none => t

/-- The `subtreePath == '.'` fast path of `TreeObject.getSubtree` (the only
part of the walk the claims exercise): the source line is
`return returnStack ? [this] : truee;`, and `truee` is an unbound identifier,
so the non-stack branch raises a ReferenceError. -/
def getSubtreeDot (t : TreeObj) (_create returnStack : Bool) :
    Except GitErr (List GitNode) :=
  if returnStack then .ok [t.toNode] else .error .referenceError

/-- Write an updated child node back to wherever the name resolves (own
overlay entry, else hydrated base entry), mirroring JS in-place mutation of
the shared child object. -/
def updateChildInPlace (t : TreeObj) (name : String) (n : GitNode) : TreeObj :=
  if (alookup t.overlay name).isSome then
    { t with overlay := aset t.overlay name (some n) }
  else
    match t.base with
    | some b =>
        if (alookup b name).isSome then { t with base := some (aset b name n) }
        else t
    | none => t

/-! ## `TreeObject.write` -/

/-- `TreeObject.write`: returns the current hash for a clean node; otherwise
collects non-tombstoned children into `mktree` entry lines (recursively
writing dirty subtrees, skipping subtrees that resolve to the empty tree,
defaulting blob mode to `100644`), obtains the new hash from the batched
builder `mk`, folds the overlay into the base children (tombstones delete),
clears the overlay and the dirty flag. -/
def writeNode (mk : List TreeChild → String) :
    Nat → TreeObj → Except GitErr (String × TreeObj)
  | 0, _ => .error .fuelExhausted
  | fuel + 1, t =>
    if t.dirty = false then .ok (t.hash, t)
    else
      let step : Except GitErr (List TreeChild × TreeObj) → String →
          Except GitErr (List TreeChild × TreeObj) := fun acc name =>
        match acc with
        | .error e => .error e
        | .ok (ls, cur) =>
            match childLookup cur.base cur.overlay name with
            | none => .ok (ls, cur)
            | some (.tree d h b o) =>
                if d then
                  match writeNode mk fuel ⟨d, h, b, o⟩ with
                  | .error e => .error e
                  | .ok (h2, c2) =>
                      let cur2 := updateChildInPlace cur name c2.toNode
                      if h2 = EMPTY_TREE_HASH then .ok (ls, cur2)
                      else .ok (ls ++ [⟨"040000", "tree", h2, name⟩], cur2)
                else if h = EMPTY_TREE_HASH then .ok (ls, cur)
                else .ok (ls ++ [⟨"040000", "tree", h, name⟩], cur)
            | some (.blob h m) =>
                .ok (ls ++ [⟨(if m = "" then "100644" else m), "blob", h, name⟩], cur)
      match (forInKeys t.base t.overlay).foldl step (.ok ([], t)) with
      | .error e => .error e
      | .ok (ls, t2) =>
          let newHash := mk ls
          match t2.base with
          | none =>
              if t2.overlay.isEmpty then .ok (newHash, ⟨false, newHash, none, []⟩)
              else .error .typeError
          | some b =>
              let b2 := t2.overlay.foldl
                (fun acc kv =>
                  match kv.2 with
                  | none => aremove acc kv.1
                  | some n => aset acc kv.1 n) b
              .ok (newHash, ⟨false, newHash, some b2, []⟩)

/-! ## `TreeObject.merge` -/

/-- A compiled minimatch matcher: the pattern string and its negation flag
(minimatch marks patterns beginning with `!` as negated). The glob engine
itself is external; merge takes it as an oracle `mm : pattern → path → Bool`. -/
structure Minimatcher where
  pattern : String
  negate : Bool
deriving DecidableEq, Repr

def compilePattern (p : String) : Minimatcher :=
  ⟨p, p.startsWith "!"⟩

/-- Compiled merge options. -/
structure MergeOpts where
  matchers : Option (List Minimatcher)
  mode : String
deriving DecidableEq, Repr

/-- The `MergeOptions` constructor: matchers are compiled unless the file
list is empty or exactly `["**"]`; then the mode is validated — anything
other than `"overlay"` or `"replace"` throws (`BadArgument`). -/
def compileMergeOptions (files : Option (List String)) (mode : String) :
    Except GitErr MergeOpts :=
  let matchers : Option (List Minimatcher) :=
    match files with
    | none => none
    | some fs =>
        if fs.length ≠ 0 ∧ (fs.length > 1 ∨ fs.head? ≠ some "**") then
          some (fs.map compilePattern)
        else none
  if mode ≠ "overlay" ∧ mode ≠ "replace" then .error .badArgument
  else .ok ⟨matchers, mode⟩

/-- The `options` argument of `merge`: a raw `{files, mode}` object (compiled
on entry) or an already-compiled `MergeOptions` instance passed down by
recursive calls. -/
inductive MergeOptionsArg where
  | raw (files : Option (List String)) (mode : String)
  | compiled (o : MergeOpts)

/-- `new TreeObject({})`: clean, empty-tree hash, unhydrated, empty overlay. -/
def emptyTreeObj : TreeObj := ⟨false, EMPTY_TREE_HASH, none, []⟩

/-- `path.join(basePath, childName)` as used by merge (the base path may
carry a trailing slash from a tree child path). -/
def joinPath (basePath name : String) : String :=
  let b := if basePath.endsWith "/" then basePath.dropRight 1 else basePath
  if b = "." then name else b ++ "/" ++ name

/-- The replace-mode epilogue of `merge`: every target child with no
counterpart in the input (not even a tombstone) is set to a tombstone.
Note the source does NOT touch the dirty flag here. -/
def replaceTombstones (inputBase : Option (List (String × GitNode)))
    (inputOverlay : List (String × Option GitNode)) (tgt : TreeObj) : TreeObj :=
  (forInKeys tgt.base tgt.overlay).foldl
    (fun t k =>
      match childLookup inputBase inputOverlay k with
      | none => { t with overlay := aset t.overlay k none }
      | some _ => t)
    tgt

/-- `TreeObject.merge`: hydrate both sides, compile raw options (validating
the mode), walk the input children applying the matcher gate and the
overlay/replace placement rules, recursing into child trees, then in replace
mode tombstone unmatched target children. Child merges that the source runs
concurrently touch disjoint children and are folded sequentially here; `mm`
is the minimatch oracle and `fuel` bounds recursion depth. -/
def TreeObject_merge (mm : String → String → Bool) (store : Store) :
    Nat → TreeObj → TreeObj → MergeOptionsArg → String → Bool →
    Option GitErr × TreeObj
  | 0, target, _, _, _, _ => (some .fuelExhausted, target)
  | fuel + 1, target, input, optionsArg, basePath, preloadChildren =>
    match hydrateIfNeeded store preloadChildren target with
    | .error e => (some e, target)
    | .ok target1 =>
      match hydrateIfNeeded store preloadChildren input with
      | .error e => (some e, target1)
      | .ok input1 =>
        match (match optionsArg with
               | .raw files mode => compileMergeOptions files mode
               | .compiled o => Except.ok o) with
        | .error e => (some e, target1)
        | .ok opts =>
          let processChild : TreeObj → String → Option GitErr × TreeObj :=
            fun tgt name =>
              match childLookup input1.base input1.overlay name with
              | none => (none, tgt)
              | some ic =>
                let bc := childLookup tgt.base tgt.overlay name
                let fastSkip : Bool :=
                  match bc with
                  | some b => !b.nodeDirty && !ic.nodeDirty && b.nodeHash == ic.nodeHash
                  | none => false
                if fastSkip then (none, tgt)
                else
                  let childPath :=
                    joinPath basePath name ++ (if ic.isTree then "/" else "")
                  let gate : Bool × Bool × Bool :=
                    match opts.matchers with
                    | none => (false, false, false)
                    | some ms =>
                        let matched := ms.any fun m => !m.negate && mm m.pattern childPath
                        let negs := ms.any (·.negate)
                        (ms.any fun m => m.negate && !(mm m.pattern childPath),
                         !matched && ic.isBlob,
                         (!matched || negs) && ic.isTree)
                  if gate.1 then (none, tgt)
                  else if gate.2.1 then (none, tgt)
                  else
                    let pendingChildMatch := gate.2.2
                    match ic with
                    | .blob h m =>
                        (none, { tgt with
                                   overlay := aset tgt.overlay name (some (.blob h m))
                                   dirty := true })
                    | .tree icd ich icb ico =>
                        let icTO : TreeObj := ⟨icd, ich, icb, ico⟩
                        let bcIsTree : Bool :=
                          match bc with
                          | some b => b.isTree
                          | none => false
                        if bcIsTree = false ∨ opts.mode = "replace" then
                          if pendingChildMatch then
                            match TreeObject_merge mm store fuel emptyTreeObj icTO
                                (.compiled opts) childPath true with
                            | (some e, _) => (some e, tgt)
                            | (none, merged) =>
                                if merged.dirty then
                                  (none, { tgt with
                                             overlay := aset tgt.overlay name (some merged.toNode)
                                             dirty := true })
                                else (none, tgt)
                          else if icd = false then
                            (none, { tgt with
                                       overlay := aset tgt.overlay name
                                         (some (.tree false ich none []))
                                       dirty := true })
                          else
                            let tgt1 := { tgt with
                                            overlay := aset tgt.overlay name
                                              (some emptyTreeObj.toNode)
                                            dirty := true }
                            match TreeObject_merge mm store fuel emptyTreeObj icTO
                                (.compiled opts) childPath false with
                            | (e, merged) =>
                                (e, updateChildInPlace tgt1 name merged.toNode)
                        else
                          match bc with
                          | some (.tree bd bh bb bo) =>
                              match TreeObject_merge mm store fuel ⟨bd, bh, bb, bo⟩ icTO
                                  (.compiled opts) childPath true with
                              | (e, merged) =>
                                  let tgt2 := updateChildInPlace tgt name merged.toNode
                                  match e with
                                  | some e2 => (some e2, tgt2)
                                  | none =>
                                      (none, { tgt2 with
                                                 dirty := tgt2.dirty || merged.dirty })
                          | _ => (some .typeError, tgt)
          let looped := (forInKeys input1.base input1.overlay).foldl
            (fun acc name =>
              match acc.1 with
              | some _ => acc
              | none => processChild acc.2 name)
            (none, target1)
          match looped.1 with
          | some e => (some e, looped.2)
          | none =>
              if opts.mode = "replace" then
                (none, replaceTombstones input1.base input1.overlay looped.2)
              else (none, looped.2)

/-! ## `TreeRoot` (TreeSnapshot): flat read and hierarchical build -/

/-- JS `String.prototype.split('\n')` (an empty string yields `[""]`). -/
def splitNl : List Char → List (List Char)
  | [] => [[]]
  | c :: cs =>
      match splitNl cs with
      | rh :: rt => if c = '\n' then [] :: rh :: rt else (c :: rh) :: rt
      | [] => [[c]]

/-- Greedy span of characters different from `stop`. -/
def spanNot (stop : Char) (s : List Char) : List Char × List Char :=
  (s.takeWhile (· ≠ stop), s.dropWhile (· ≠ stop))

/-- The `ls-tree` line regex `^([^ ]+) ([^ ]+) ([^\t]+)\t(.*)` — `none` when
the line does not match (on which the source's destructuring of the null
match result throws a TypeError). -/
def treeLineParse (line : List Char) :
    Option (List Char × List Char × List Char × List Char) :=
  let p1 := spanNot ' ' line
  match p1.1, p1.2 with
  | [], _ => none
  | _, ' ' :: r2 =>
      let p2 := spanNot ' ' r2
      match p2.1, p2.2 with
      | [], _ => none
      | _, ' ' :: r4 =>
          let p3 := spanNot '\t' r4
          match p3.1, p3.2 with
          | [], _ => none
          | _, '\t' :: rest => some (p1.1, p2.1, p3.1, rest)
          | _, _ => none
      | _, _ => none
  | _, _ => none

/-- `TreeRoot.read` applied to the output of a successful
`ls-tree --full-tree -r` call: parse each line into a flat
`path → {mode, type, hash}` mapping; a non-matching line (e.g. the single
empty line produced for the empty tree) throws. -/
def TreeRoot_read (lsTreeOutput : List Char) :
    Except GitErr (List (List Char × CacheEntry)) :=
  (splitNl lsTreeOutput).foldl
    (fun acc line =>
      match acc with
      | .error e => .error e
      | .ok t =>
          match treeLineParse line with
          | none => .error .typeError
          | some (m, ty, h, p) => .ok (aset t p ⟨String.mk m, String.mk ty, String.mk h⟩))
    (.ok [])

/-- What `TreeRoot.buildTreeObject` actually produces: each interior node is
a `new git.TreeObject()` whose children are attached as plain expando
properties (`parentNode[nodeName] = …`), NOT entered into `_children`, and
whose constructor fields (`dirty = false`, `hash = EMPTY_TREE_HASH`,
`_children = {}`, `_baseChildren = null`) are never touched. Leaves are the
raw `{mode, type, hash}` entries. -/
inductive BuiltChild : Type where
  | node (props : List (List Char × BuiltChild)) : BuiltChild
  | entry (e : CacheEntry) (props : List (List Char × BuiltChild)) : BuiltChild

def BuiltChild.propsOf : BuiltChild → List (List Char × BuiltChild)
  | .node ps => ps
  | .entry _ ps => ps

def BuiltChild.withProps : BuiltChild → List (List Char × BuiltChild) → BuiltChild
  | .node _, ps => .node ps
  | .entry e _, ps => .entry e ps

/-- JS `String.prototype.split('/')`. -/
def splitSlash : List Char → List (List Char)
  | [] => [[]]
  | c :: cs =>
      match splitSlash cs with
      | rh :: rt => if c = '/' then [] :: rh :: rt else (c :: rh) :: rt
      | [] => [[c]]

/-- The per-path walk of `buildTreeObject`: descend (creating fresh
`TreeObject`s) while the shifted segment is truthy and segments remain, then
assign the flat entry at the final segment as an expando property. -/
def insertPath (b : BuiltChild) : List (List Char) → CacheEntry → BuiltChild
  | [], _ => b
  | [seg], e => b.withProps (aset b.propsOf seg (.entry e []))
  | seg :: rest, e =>
      if seg.isEmpty then b.withProps (aset b.propsOf seg (.entry e []))
      else
        let child := ((alookup b.propsOf seg).getD (.node []))
        b.withProps (aset b.propsOf seg (insertPath child rest e))

/-- Lexicographic order on character lists (JS default `Array.sort` of
string keys). -/
def lexLt : List Char → List Char → Bool
  | [], [] => false
  | [], _ :: _ => true
  | _ :: _, [] => false
  | c :: cs, d :: ds => c < d || (c = d && lexLt cs ds)

def insertSorted (k : List Char) : List (List Char) → List (List Char)
  | [] => [k]
  | x :: xs => if lexLt k x then k :: x :: xs else x :: insertSorted k xs

def sortLex (ks : List (List Char)) : List (List Char) :=
  ks.foldr insertSorted []

/-- `TreeRoot.buildTreeObject`: iterate the flat mapping's keys in sorted
order, walking/creating intermediate `TreeObject`s and attaching each entry —
all through plain property assignment on the instances. -/
def buildTreeObject (flat : List (List Char × CacheEntry)) : BuiltChild :=
  (sortLex (akeys flat)).foldl
    (fun root k =>
      match alookup flat k with
      | some e => insertPath root (splitSlash k) e
      | none => root)
    (.node [])

/-- The `TreeObject` instance state of every node created by
`buildTreeObject` (`new git.TreeObject()` with no arguments): clean, with the
empty-tree hash, no hydrated base, empty `_children` overlay. The expando
properties live outside these fields. -/
def builtRootState : TreeObj := ⟨false, EMPTY_TREE_HASH, none, []⟩


/-- Overlay tombstone detector, for stating invariant (i) of the spec. -/
def noTombstones (t : TreeObj) : Bool :=
  t.overlay.all (fun kv => kv.2.isSome)

/-- Stand-in `mktree` hasher for write calls that must not reach the builder. -/
def mkUnused : List TreeChild → String := fun _ => ""

/-! Concrete fixtures for the claims refuted by evaluation. -/

def storeC2 : Store :=
  [("2222222222222222222222222222222222222222",
    [("a", ⟨"100644", "blob", "aaaa000000000000000000000000000000000000"⟩)])]

def targetC2 : TreeObj :=
  ⟨false, "2222222222222222222222222222222222222222", none, []⟩

/-- Replace-merge of an empty input into a one-child target, no matchers. -/
def mergeC2 : Option GitErr × TreeObj :=
  TreeObject_merge (fun _ _ => false) storeC2 4 targetC2 emptyTreeObj
    (.raw none "replace") "." true

def storeC4 : Store :=
  [("1111111111111111111111111111111111111111",
    [("a", ⟨"100644", "blob", "aaaa000000000000000000000000000000000000"⟩)])]

def targetC4 : TreeObj :=
  ⟨false, "1111111111111111111111111111111111111111", none, []⟩

/-- Replace-merge with matcher list `["**"]` of an empty input into a
one-child target. -/
def mergeC4 : Option GitErr × TreeObj :=
  TreeObject_merge (fun _ _ => false) storeC4 4 targetC4 emptyTreeObj
    (.raw (some ["**"]) "replace") "." true

def flatC1 : List (List Char × CacheEntry) :=
  [("a.txt".toList, ⟨"100644", "blob", "aaaa000000000000000000000000000000000000"⟩)]

/-- C2: the claimed invariant — a clean node has no overlay tombstones, and
every tombstone insertion sets `dirty` — is violated by `merge`'s
replace-mode epilogue: merging an empty input into a clean one-child target
in replace mode inserts the tombstone for `"a"` into the overlay but leaves
`dirty = false` (unlike `deleteChild`, which does set it), so the node looks
clean while its overlay carries a pending deletion. -/
theorem merge_replace_breaks_clean_invariant :
    mergeC2.1 = none ∧
    mergeC2.2.dirty = false ∧
    alookup mergeC2.2.overlay "a" = some none ∧
    noTombstones mergeC2.2 = false ∧
    (deleteChild { targetC2 with base := some [("a", .blob "aaaa000000000000000000000000000000000000" "100644")] } "a").dirty = true := by
  exact ⟨rfl, rfl, rfl, rfl, rfl⟩

/-- C4: merging any input into any target with `mode = "replace"` and matcher
list `["**"]` is claimed to make the written target hash equal the input's
hash. Refuted by evaluation: with an empty input and a one-child clean
target, the merge leaves `dirty = false` (the replace epilogue never sets
it), so `write` returns the target's stale old hash, which differs from the
input's `EMPTY_TREE_HASH`. -/
theorem merge_replace_star_keeps_stale_hash :
    mergeC4.1 = none ∧
    mergeC4.2.dirty = false ∧
    writeNode mkUnused 1 mergeC4.2 =
      .ok ("1111111111111111111111111111111111111111", mergeC4.2) ∧
    emptyTreeObj.hash = EMPTY_TREE_HASH ∧
    "1111111111111111111111111111111111111111" ≠ EMPTY_TREE_HASH := by
  refine ⟨rfl, rfl, rfl, rfl, ?_⟩
  decide

/-- C1: the `TreeSnapshot` round trip `read(build(M).write())` is claimed to
return `M`. Refuted by evaluation: `buildTreeObject` attaches children as
plain expando properties and never sets `dirty` or `_children`, so each
node keeps the constructor state `builtRootState`; the cited instance
`TreeObject.write` therefore takes the clean fast path and returns
`EMPTY_TREE_HASH` without writing anything, and reading the empty tree's
(empty) `ls-tree` output throws a TypeError in the line parser — so the
round trip never yields the non-empty mapping `M`. -/
theorem treeRoot_roundtrip_fails :
    buildTreeObject flatC1 =
      .node [("a.txt".toList,
        .entry ⟨"100644", "blob", "aaaa000000000000000000000000000000000000"⟩ [])] ∧
    writeNode mkUnused 1 builtRootState = .ok (EMPTY_TREE_HASH, builtRootState) ∧
    TreeRoot_read [] = .error .typeError ∧
    flatC1 ≠ [] := by
  refine ⟨rfl, rfl, rfl, ?_⟩
  decide

/-- C3: capture mode is claimed to trim only trailing whitespace. Refuted by
evaluation: the source resolves `stdout.trim()`, which also strips the
leading space, so the porcelain status line `" M test.txt"` loses its leading
space (the repository's own test asserts it is preserved); trimming only the
trailing end would have preserved it. -/
theorem exec_capture_trims_leading_whitespace :
    execCapture false 0 (" M test.txt\n".toList) [] = .ok ("M test.txt".toList) ∧
    occursIn (" M test.txt".toList) ("M test.txt".toList) = false ∧
    occursIn (" M test.txt".toList) (jsTrimEnd (" M test.txt\n".toList)) = true := by
  refine ⟨by decide, by decide, by decide⟩

/-- C6: `$onStdout` / `$onStderr` are claimed to install per-line callbacks
in spawn mode. Refuted by evaluation: they are not among the executor-control
keys `exec` extracts, so the scan leaves them in the option map and encodes
them into git argv as a bogus `--$onStdout=…` token; no callback mechanism
exists (the repository's README, type definitions and tests all promise
one). -/
theorem exec_line_callbacks_not_extracted :
    execControlKeys.contains ("$onStdout".toList) = false ∧
    execControlKeys.contains ("$onStderr".toList) = false ∧
    buildScan [.str ("log".toList),
        .opts [("$onStdout".toList, .scalar (.sFn ("cb".toList)))]] =
      ⟨some ("log".toList), [("--$onStdout=cb".toList)], []⟩ := by
  refine ⟨by decide, by decide, rfl⟩

/-- C8: `getSubtree(".")` with `returnStack` returns the one-element stack
`[this]`, but without `returnStack` (the default) the source line
`return returnStack ? [this] : truee` dereferences the unbound identifier
`truee` and raises a ReferenceError instead of returning the receiver. -/
theorem getSubtree_dot_raises_reference_error :
    ∀ (t : TreeObj) (create : Bool),
      getSubtreeDot t create false = .error .referenceError ∧
      getSubtreeDot t create true = .ok [t.toNode] := by
  intro t create
  exact ⟨rfl, rfl⟩

/-- The scan loop of `Git.exec` never looks past a falsy argument. -/
theorem scanArgs_stops (xs : List ExecArg) :
    ∀ (st : ScanState) (f : ExecArg) (ys : List ExecArg),
      f.truthy = false → scanArgs (xs ++ f :: ys) st = scanArgs xs st := by
  induction xs with
  | nil =>
      intro st f ys hf
      simp [scanArgs, hf]
  | cons a rest ih =>
      intro st f ys hf
      simp only [List.cons_append, scanArgs]
      by_cases h : a.truthy = true
      · simp only [h, if_true]
        exact ih _ f ys hf
      · simp [h]

/-- C10: argument scanning stops at the first falsy argument (`0`, the empty
string, `null`/`undefined`): it and every later argument are dropped and
contribute nothing to the scan result (subcommand, argv, executor
controls). -/
theorem exec_scan_stops_at_first_falsy (xs ys : List ExecArg) (f : ExecArg)
    (hf : f.truthy = false) :
    buildScan (xs ++ f :: ys) = buildScan xs :=
  scanArgs_stops xs ⟨none, [], []⟩ f ys hf

theorem exec_scan_stops_at_first_falsy_witness :
    buildScan [ExecArg.str ("log".toList), ExecArg.num 0,
        ExecArg.str ("-p".toList)] =
      buildScan [ExecArg.str ("log".toList)] :=
  exec_scan_stops_at_first_falsy [ExecArg.str ("log".toList)]
    [ExecArg.str ("-p".toList)] (ExecArg.num 0) rfl

/-! ## The option encoder: non-injectivity and the safe-domain round trip -/

theorem encode_cons_scalar (k : List Char) (sv : Scalar)
    (rest : List (List Char × OptVal)) :
    cliOptionsToArgs ((k, .scalar sv) :: rest) = encodeKV k sv ++ cliOptionsToArgs rest := by
  simp [cliOptionsToArgs]

theorem splitAtEq_no_eq (k : List Char) (h : hasEqSign k = false) :
    splitAtEq k = (k, none) := by
  induction k with
  | nil => rfl
  | cons c cs ih =>
      simp only [hasEqSign, Bool.or_eq_false_iff, decide_eq_false_iff_not] at h
      simp [splitAtEq, h.1, ih h.2]

theorem splitAtEq_mid (k s : List Char) (h : hasEqSign k = false) :
    splitAtEq (k ++ '=' :: s) = (k, some s) := by
  induction k with
  | nil => simp [splitAtEq]
  | cons c cs ih =>
      simp only [hasEqSign, Bool.or_eq_false_iff, decide_eq_false_iff_not] at h
      simp [splitAtEq, h.1, ih h.2]

theorem encode_first_dash (opts : List (List Char × OptVal)) (t : List Char)
    (ts : List (List Char))
    (h : ∀ kv ∈ opts, goodKey kv.1 = true ∧ goodVal kv.2 = true)
    (he : cliOptionsToArgs opts = t :: ts) : headDash t = true := by
  cases opts with
  | nil => simp [cliOptionsToArgs] at he
  | cons kv rest =>
      obtain ⟨k, v⟩ := kv
      have hv := (h _ (List.mem_cons_self _ _)).2
      cases v with
      | arr l => simp [goodVal] at hv
      | scalar sv =>
          rw [encode_cons_scalar] at he
          cases sv with
          | sFalse => simp [goodVal] at hv
          | sNull => simp [goodVal] at hv
          | sNum n => simp [goodVal] at hv
          | sFn f => simp [goodVal] at hv
          | sTrue =>
              by_cases hkl : k.length = 1
              · simp only [encodeKV, hkl, if_true, List.cons_append, List.nil_append,
                  List.cons.injEq] at he
                rw [← he.1]
                rfl
              · simp only [encodeKV, hkl, if_false, List.cons_append, List.nil_append,
                  List.cons.injEq] at he
                rw [← he.1]
                rfl
          | sStr s =>
              by_cases hkl : k.length = 1
              · simp only [encodeKV, hkl, if_true, List.cons_append, List.nil_append,
                  List.cons.injEq] at he
                rw [← he.1]
                rfl
              · simp only [encodeKV, hkl, if_false, List.cons_append, List.nil_append,
                  List.cons.injEq] at he
                rw [← he.1]
                rfl

/-- C9 (amended): on option mappings whose keys are unambiguous (nonempty, a
single-character key other than `'-'`, no `'='` in longer keys) and whose
values are `true` or strings not beginning with `'-'`, the encoder is
invertible: `decodeTokens` recovers the mapping exactly. -/
theorem drop_one_cons (x : Char) (l : List Char) : (x :: l).drop 1 = l := rfl

theorem drop_two_cons (x y : Char) (l : List Char) : (x :: y :: l).drop 2 = l := rfl

theorem decode_cons_dd (t : List Char) (ts : List (List Char))
    (h : leadsWith ['-', '-'] t = true) :
    decodeTokens (t :: ts) = decodeDD (t.drop 2) :: decodeTokens ts := by
  cases ts with
  | nil => simp [decodeTokens, h]
  | cons v r => simp [decodeTokens, h]

theorem decode_cons_true (t : List Char) (ts : List (List Char))
    (hdd : leadsWith ['-', '-'] t = false) (hd : headDash t = true)
    (hts : ts = [] ∨ ∃ v r, ts = v :: r ∧ headDash v = true) :
    decodeTokens (t :: ts) = (t.drop 1, .scalar .sTrue) :: decodeTokens ts := by
  rcases hts with h0 | ⟨v, r, h1, h2⟩
  · subst h0
    simp [decodeTokens, hdd, hd]
  · subst h1
    simp [decodeTokens, hdd, hd, h2]

theorem decode_cons_str (t v : List Char) (r : List (List Char))
    (hdd : leadsWith ['-', '-'] t = false) (hd : headDash t = true)
    (hv : headDash v = false) :
    decodeTokens (t :: v :: r) = (t.drop 1, .scalar (.sStr v)) :: decodeTokens r := by
  simp [decodeTokens, hdd, hd, hv]

/-- C9 (amended): on option mappings whose keys are unambiguous (nonempty, a
single-character key other than `'-'`, no `'='` in longer keys) and whose
values are `true` or strings not beginning with `'-'`, the encoder is
invertible: `decodeTokens` recovers the mapping exactly. -/
theorem cliOptionsToArgs_roundtrip :
    ∀ (opts : List (List Char × OptVal)),
      (∀ kv ∈ opts, goodKey kv.1 = true ∧ goodVal kv.2 = true) →
      decodeTokens (cliOptionsToArgs opts) = opts := by
  intro opts
  induction opts with
  | nil => intro _; simp [cliOptionsToArgs, decodeTokens]
  | cons kv rest ih =>
      intro h
      obtain ⟨k, v⟩ := kv
      have hk := (h _ (List.mem_cons_self _ _)).1
      have hv := (h _ (List.mem_cons_self _ _)).2
      have hrest : ∀ kv ∈ rest, goodKey kv.1 = true ∧ goodVal kv.2 = true :=
        fun kv hm => h kv (List.mem_cons_of_mem _ hm)
      have ihr := ih hrest
      have hts : cliOptionsToArgs rest = [] ∨
          ∃ v r, cliOptionsToArgs rest = v :: r ∧ headDash v = true := by
        cases htok : cliOptionsToArgs rest with
        | nil => exact Or.inl rfl
        | cons v r => exact Or.inr ⟨v, r, rfl, encode_first_dash rest v r hrest htok⟩
      cases v with
      | arr l => simp [goodVal] at hv
      | scalar sv =>
          rw [encode_cons_scalar]
          cases sv with
          | sFalse => simp [goodVal] at hv
          | sNull => simp [goodVal] at hv
          | sNum n => simp [goodVal] at hv
          | sFn f => simp [goodVal] at hv
          | sTrue =>
              cases k with
              | nil => simp [goodKey] at hk
              | cons a k1 =>
                  cases k1 with
                  | nil =>
                      have ha : ¬ (a = '-') := by simpa [goodKey] using hk
                      have ha2 : ¬ ('-' = a) := fun e => ha e.symm
                      have he : encodeKV [a] .sTrue = [['-', a]] := by
                        simp [encodeKV]
                      have hdd : leadsWith ['-', '-'] ['-', a] = false := by
                        simp [leadsWith, ha2]
                      have hd : headDash ['-', a] = true := by
                        simp [headDash]
                      rw [he]
                      simp only [List.cons_append, List.nil_append]
                      rw [decode_cons_true _ _ hdd hd hts, ihr]
                      rfl
                  | cons b k2 =>
                      have hne : hasEqSign (a :: b :: k2) = false := by
                        simpa [goodKey] using hk
                      have hlen : ¬ ((a :: b :: k2).length = 1) := by
                        simp [List.length]
                      have he : encodeKV (a :: b :: k2) .sTrue =
                          ['-' :: '-' :: a :: b :: k2] := by
                        simp [encodeKV, hlen]
                      have hdd : leadsWith ['-', '-'] ('-' :: '-' :: a :: b :: k2) = true := by
                        simp [leadsWith]
                      have hdec : decodeDD (a :: b :: k2) =
                          (a :: b :: k2, .scalar .sTrue) := by
                        simp [decodeDD, splitAtEq_no_eq _ hne]
                      rw [he]
                      simp only [List.cons_append, List.nil_append]
                      rw [decode_cons_dd _ _ hdd, drop_two_cons, hdec, ihr]
          | sStr s =>
              have hs : headDash s = false := by simpa [goodVal] using hv
              cases k with
              | nil => simp [goodKey] at hk
              | cons a k1 =>
                  cases k1 with
                  | nil =>
                      have ha : ¬ (a = '-') := by simpa [goodKey] using hk
                      have ha2 : ¬ ('-' = a) := fun e => ha e.symm
                      have he : encodeKV [a] (.sStr s) = [['-', a], s] := by
                        simp [encodeKV, scalarToStr]
                      have hdd : leadsWith ['-', '-'] ['-', a] = false := by
                        simp [leadsWith, ha2]
                      have hd : headDash ['-', a] = true := by
                        simp [headDash]
                      rw [he]
                      simp only [List.cons_append, List.nil_append]
                      rw [decode_cons_str _ _ _ hdd hd hs, ihr]
                      rfl
                  | cons b k2 =>
                      have hne : hasEqSign (a :: b :: k2) = false := by
                        simpa [goodKey] using hk
                      have hlen : ¬ ((a :: b :: k2).length = 1) := by
                        simp [List.length]
                      have he : encodeKV (a :: b :: k2) (.sStr s) =
                          ['-' :: '-' :: ((a :: b :: k2) ++ '=' :: s)] := by
                        simp [encodeKV, hlen, scalarToStr]
                      have hmid := splitAtEq_mid (a :: b :: k2) s hne
                      simp only [List.cons_append] at hmid
                      have hdd : leadsWith ['-', '-']
                          ('-' :: '-' :: a :: b :: (k2 ++ '=' :: s)) = true := by
                        simp [leadsWith]
                      have hdec : decodeDD (a :: b :: (k2 ++ '=' :: s)) =
                          (a :: b :: k2, .scalar (.sStr s)) := by
                        simp [decodeDD, hmid]
                      rw [he]
                      simp only [List.cons_append, List.nil_append]
                      rw [decode_cons_dd _ _ hdd, drop_two_cons, hdec, ihr]

/-- C9 counterexample: `cliOptionsToArgs` is NOT injective up to key ordering
on its full domain. Three collisions, each between mappings that are not
permutations of one another: `{a: "-b"}` vs `{a: true, b: true}` (a value
that looks like an option), `{k: false}` vs `{}` (suppressed values), and
`{k: ["x"]}` vs `{k: "x"}` (singleton array vs scalar) — so no decoder can
recover the original mapping in general. -/
theorem cliOptionsToArgs_not_injective :
    cliOptionsToArgs [("a".toList, .scalar (.sStr ("-b".toList)))] =
      cliOptionsToArgs [("a".toList, .scalar .sTrue), ("b".toList, .scalar .sTrue)] ∧
    ¬ List.Perm [("a".toList, OptVal.scalar (.sStr ("-b".toList)))]
        [("a".toList, OptVal.scalar .sTrue), ("b".toList, OptVal.scalar .sTrue)] ∧
    cliOptionsToArgs [("k".toList, .scalar .sFalse)] = cliOptionsToArgs [] ∧
    ¬ List.Perm [("k".toList, OptVal.scalar .sFalse)] ([] : List (List Char × OptVal)) ∧
    cliOptionsToArgs [("k".toList, .arr [.sStr ("x".toList)])] =
      cliOptionsToArgs [("k".toList, .scalar (.sStr ("x".toList)))] ∧
    ¬ List.Perm [("k".toList, OptVal.arr [.sStr ("x".toList)])]
        [("k".toList, OptVal.scalar (.sStr ("x".toList)))] := by
  refine ⟨by decide, by decide, by decide, by decide, by decide, by decide⟩

theorem cliOptionsToArgs_roundtrip_witness :
    decodeTokens (cliOptionsToArgs
        [("a".toList, .scalar .sTrue), ("bc".toList, .scalar (.sStr ("x".toList)))]) =
      [("a".toList, .scalar .sTrue), ("bc".toList, .scalar (.sStr ("x".toList)))] :=
  cliOptionsToArgs_roundtrip
    [("a".toList, .scalar .sTrue), ("bc".toList, .scalar (.sStr ("x".toList)))]
    (by decide)

/-! ## The batched builder: FIFO resolution order and per-batch hashes -/

/-- The ids of all requests still tracked by the builder: resolved ones (in
resolution order) followed by the outstanding queue (in submission order). -/
def batchIds (st : BatchState) : List Nat :=
  st.resolved.map (·.1) ++ st.queue.map (·.id)

/-- Step invariant: tracked ids are strictly increasing and below the id
counter. -/
def BatchInv (st : BatchState) : Prop :=
  (batchIds st).Pairwise (· < ·) ∧ ∀ i ∈ batchIds st, i < st.nextId

theorem stepBatch_inv (st : BatchState) (e : BatchEvent) (h : BatchInv st) :
    BatchInv (stepBatch st e) := by
  obtain ⟨hp, hb⟩ := h
  cases e with
  | submit cs =>
      have hid : batchIds (stepBatch st (.submit cs)) = batchIds st ++ [st.nextId] := by
        simp [stepBatch, batchIds]
      constructor
      · rw [hid, List.pairwise_append]
        refine ⟨hp, by simp, ?_⟩
        intro a ha b hbm
        simp only [List.mem_singleton] at hbm
        subst hbm
        exact hb a ha
      · intro i hi
        rw [hid] at hi
        have hn : (stepBatch st (.submit cs)).nextId = st.nextId + 1 := by
          simp [stepBatch]
        rw [hn]
        rcases List.mem_append.mp hi with h1 | h1
        · exact Nat.lt_succ_of_lt (hb i h1)
        · simp only [List.mem_singleton] at h1
          omega
  | stdoutChunk s =>
      cases hq : st.queue with
      | nil =>
          simp only [stepBatch, hq]
          exact ⟨hp, hb⟩
      | cons j rest =>
          by_cases hm : '\n' ∈ s
          · have hid : batchIds (stepBatch st (.stdoutChunk s)) = batchIds st := by
              simp [stepBatch, hq, hm, batchIds, List.append_assoc]
            have hn : (stepBatch st (.stdoutChunk s)).nextId = st.nextId := by
              simp [stepBatch, hq, hm]
            rw [BatchInv, hid, hn]
            exact ⟨hp, hb⟩
          · have hid : batchIds (stepBatch st (.stdoutChunk s)) = batchIds st := by
              simp [stepBatch, hq, hm, batchIds]
            have hn : (stepBatch st (.stdoutChunk s)).nextId = st.nextId := by
              simp [stepBatch, hq, hm]
            rw [BatchInv, hid, hn]
            exact ⟨hp, hb⟩
  | stderrChunk s =>
      cases hq : st.queue with
      | nil =>
          simp only [stepBatch, hq]
          exact ⟨hp, hb⟩
      | cons j rest =>
          have hid : batchIds (stepBatch st (.stderrChunk s)) = batchIds st := by
            simp [stepBatch, hq, batchIds]
          have hn : (stepBatch st (.stderrChunk s)).nextId = st.nextId := by
            simp [stepBatch, hq]
          rw [BatchInv, hid, hn]
          exact ⟨hp, hb⟩
  | exited code =>
      cases hq : st.queue with
      | nil =>
          simp only [stepBatch, hq]
          exact ⟨hp, hb⟩
      | cons j rest =>
          by_cases hc : code = 0
          · have hid : batchIds (stepBatch st (.exited code)) = batchIds st := by
              simp [stepBatch, hq, hc, batchIds, List.append_assoc]
            have hn : (stepBatch st (.exited code)).nextId = st.nextId := by
              simp [stepBatch, hq, hc]
            rw [BatchInv, hid, hn]
            exact ⟨hp, hb⟩
          · have hid : batchIds (stepBatch st (.exited code)) =
                st.resolved.map (·.1) ++ rest.map (·.id) := by
              simp [stepBatch, hq, hc, batchIds]
            have hn : (stepBatch st (.exited code)).nextId = st.nextId := by
              simp [stepBatch, hq, hc]
            have hsub : List.Sublist (st.resolved.map (·.1) ++ rest.map (·.id))
                (batchIds st) := by
              rw [batchIds, hq]
              simp only [List.map_cons]
              exact (List.sublist_cons_self _ _).append_left _
            rw [BatchInv, hid, hn]
            exact ⟨List.Pairwise.sublist hsub hp, fun i hi => hb i (hsub.mem hi)⟩

theorem foldl_stepBatch_inv (es : List BatchEvent) :
    ∀ (st : BatchState), BatchInv st → BatchInv (es.foldl stepBatch st) := by
  induction es with
  | nil => intro st h; exact h
  | cons e rest ih => intro st h; exact ih _ (stepBatch_inv st e h)

theorem initBatch_inv : BatchInv initBatch := by
  constructor <;> simp [batchIds, initBatch]

theorem jsTrim_append_newline (l : List Char) (h : jsTrim l = l) :
    jsTrim (l ++ ['\n']) = l := by
  have h2 : jsTrimEnd (l ++ ['\n']) = jsTrimEnd l := by
    simp [jsTrimEnd, List.reverse_append, List.dropWhile_cons, jsWhitespace]
  rw [jsTrim, h2]
  exact h

/-- Submitting a run of batches appends one fresh job per batch (ids in
order) and writes the batch payloads, delimiter included, to stdin. -/
theorem submits_foldl (bs : List (List TreeChild)) :
    ∀ (st : BatchState),
      (bs.map BatchEvent.submit).foldl stepBatch st =
        ⟨st.queue ++ (List.range' st.nextId bs.length).map (fun i => ⟨i, [], []⟩),
         st.resolved, st.rejected,
         st.stdinBuf ++ (bs.map batchPayload).flatten,
         st.nextId + bs.length⟩ := by
  induction bs with
  | nil =>
      intro st
      cases st
      simp [List.range']
  | cons b rest ih =>
      intro st
      simp only [List.map_cons, List.foldl_cons]
      rw [ih]
      simp [stepBatch, List.range'_succ, List.append_assoc]
      omega

/-- Delivering one newline-terminated hash line per outstanding request
resolves the queue front-to-back, each request receiving its own trimmed
hash; stdin is untouched. -/
theorem chunks_resolve (hs : List (List Char)) :
    ∀ (st : BatchState),
      (∀ h ∈ hs, jsTrim h = h) →
      st.queue.length = hs.length →
      (∀ j ∈ st.queue, j.output = []) →
      ((hs.map (fun h => BatchEvent.stdoutChunk (h ++ ['\n']))).foldl stepBatch st).resolved
          = st.resolved ++ (st.queue.map (·.id)).zip hs ∧
      ((hs.map (fun h => BatchEvent.stdoutChunk (h ++ ['\n']))).foldl stepBatch st).stdinBuf
          = st.stdinBuf := by
  induction hs with
  | nil =>
      intro st _ hlen _
      simp
  | cons hh ht ih =>
      intro st hall hlen hout
      cases hq : st.queue with
      | nil =>
          rw [hq] at hlen
          simp at hlen
      | cons j qrest =>
          have hm : '\n' ∈ hh ++ ['\n'] := by simp
          have hjout : j.output = [] := hout j (by rw [hq]; exact List.mem_cons_self _ _)
          have htrim : jsTrim (j.output ++ (hh ++ ['\n'])) = hh := by
            rw [hjout, List.nil_append]
            exact jsTrim_append_newline hh (hall hh (List.mem_cons_self _ _))
          have hstep : stepBatch st (.stdoutChunk (hh ++ ['\n'])) =
              { st with queue := qrest, resolved := st.resolved ++ [(j.id, hh)] } := by
            simp [stepBatch, hq, hm, htrim]
          rw [List.map_cons, List.foldl_cons, hstep]
          have hrest := ih { st with queue := qrest, resolved := st.resolved ++ [(j.id, hh)] }
            (fun h hmem => hall h (List.mem_cons_of_mem _ hmem))
            (by
              rw [hq] at hlen
              simpa using Nat.succ_injective hlen)
            (fun j2 hj2 => hout j2 (by rw [hq]; exact List.mem_cons_of_mem _ hj2))
          refine ⟨?_, hrest.2⟩
          rw [hrest.1]
          simp [hq, List.append_assoc]

/-- C5: `mktreeBatch` requests resolve strictly in submission order — over any
event sequence the resolved ids are strictly increasing — and when the child
emits the one newline-terminated hash line per batch, the i-th request
resolves with exactly the i-th trimmed hash, the batches having been written
to the child's stdin delimited by empty lines (`batchPayload`). -/
theorem mktreeBatch_fifo :
    (∀ es : List BatchEvent,
       ((runBatch es).resolved.map (·.1)).Pairwise (· < ·)) ∧
    (∀ (bs : List (List TreeChild)) (hs : List (List Char)),
       hs.length = bs.length →
       (∀ h ∈ hs, jsTrim h = h) →
       (runBatch (bs.map .submit ++
           hs.map (fun h => .stdoutChunk (h ++ ['\n'])))).resolved
           = (List.range bs.length).zip hs ∧
       (runBatch (bs.map .submit ++
           hs.map (fun h => .stdoutChunk (h ++ ['\n'])))).stdinBuf
           = (bs.map batchPayload).flatten) := by
  constructor
  · intro es
    have h := foldl_stepBatch_inv es initBatch initBatch_inv
    have hsub : List.Sublist ((runBatch es).resolved.map (·.1))
        (batchIds (runBatch es)) :=
      List.sublist_append_left _ _
    exact List.Pairwise.sublist hsub h.1
  · intro bs hs hlen hall
    have hrun : runBatch (bs.map .submit ++
        hs.map (fun h => .stdoutChunk (h ++ ['\n'])))
        = (hs.map (fun h => BatchEvent.stdoutChunk (h ++ ['\n']))).foldl stepBatch
            ((bs.map BatchEvent.submit).foldl stepBatch initBatch) := by
      rw [runBatch, List.foldl_append]
    have hstate := submits_foldl bs initBatch
    have h1 : ((bs.map BatchEvent.submit).foldl stepBatch initBatch).queue.length
        = hs.length := by
      rw [hstate]
      simp [initBatch, List.length_range']
      omega
    have h2 : ∀ j ∈ ((bs.map BatchEvent.submit).foldl stepBatch initBatch).queue,
        j.output = [] := by
      rw [hstate]
      intro j hj
      simp only [initBatch, List.nil_append] at hj
      rcases List.mem_map.mp hj with ⟨i, -, rfl⟩
      rfl
    have hres := chunks_resolve hs _ hall h1 h2
    constructor
    · rw [hrun, hres.1, hstate]
      simp [initBatch, List.map_map, Function.comp_def, List.range_eq_range']
    · rw [hrun, hres.2, hstate]
      simp [initBatch]

theorem mktreeBatch_fifo_witness :
    (runBatch ([[(⟨"100644", "blob", "bc0c330151d9a2ca8d87d1ff914b87f152036b19",
          "kitten.jpg"⟩ : TreeChild)],
        [⟨"100644", "blob", "97ab63ad46e50ac4012ac9370b33878b224c4fa3",
          "cage.jpg"⟩]].map BatchEvent.submit ++
        (["aaa111".toList, "bbb222".toList].map
          (fun h => BatchEvent.stdoutChunk (h ++ ['\n']))))).resolved
      = (List.range 2).zip ["aaa111".toList, "bbb222".toList] :=
  (mktreeBatch_fifo.2
      [[⟨"100644", "blob", "bc0c330151d9a2ca8d87d1ff914b87f152036b19", "kitten.jpg"⟩],
       [⟨"100644", "blob", "97ab63ad46e50ac4012ac9370b33878b224c4fa3", "cage.jpg"⟩]]
      ["aaa111".toList, "bbb222".toList] (by decide) (by decide)).1

/-! ## Merge with an unknown mode -/

/-- Hydration never touches the dirty flag, the hash, or (for well-formed
nodes, whose overlay is empty while unhydrated) the overlay. -/
theorem hydrate_preserves (store : Store) (p : Bool) (t t1 : TreeObj)
    (h : hydrateIfNeeded store p t = .ok t1)
    (hwf : t.base = none → t.overlay = []) :
    t1.dirty = t.dirty ∧ t1.hash = t.hash ∧ t1.overlay = t.overlay := by
  unfold hydrateIfNeeded at h
  by_cases hc : t.hash ≠ "" ∧ t.base.isNone
  · rw [if_pos hc] at h
    unfold loadBaseChildren at h
    by_cases he : t.hash = "" ∨ t.hash = EMPTY_TREE_HASH
    · rw [if_pos he] at h
      injection h with h2
      subst h2
      exact ⟨rfl, rfl, rfl⟩
    · rw [if_neg he] at h
      by_cases hb : t.base.isSome
      · rw [if_pos hb] at h
        injection h with h2
        subst h2
        exact ⟨rfl, rfl, rfl⟩
      · rw [if_neg hb] at h
        cases hl : alookup store t.hash with
        | none =>
            rw [hl] at h
            simp at h
        | some entries =>
            rw [hl] at h
            injection h with h2
            subst h2
            refine ⟨rfl, rfl, ?_⟩
            have hn : t.base = none := by
              cases hbb : t.base with
              | none => rfl
              | some b => rw [hbb] at hb; simp at hb
            exact (hwf hn).symm
  · rw [if_neg hc] at h
    injection h with h2
    subst h2
    exact ⟨rfl, rfl, rfl⟩

/-- C7: a merge whose options carry a mode other than `"overlay"` or
`"replace"` fails with the BadArgument error thrown by the `MergeOptions`
constructor, before any child is processed: provided both sides hydrate
(and the target is well formed), the target's dirty flag, hash and overlay
are exactly as before the call. -/
theorem merge_unknown_mode_fails_cleanly
    (mm : String → String → Bool) (store : Store) (fuel : Nat)
    (target input target1 input1 : TreeObj)
    (files : Option (List String)) (mode : String)
    (basePath : String) (preload : Bool)
    (hmo : mode ≠ "overlay") (hmr : mode ≠ "replace")
    (hwf : target.base = none → target.overlay = [])
    (h1 : hydrateIfNeeded store preload target = .ok target1)
    (h2 : hydrateIfNeeded store preload input = .ok input1) :
    (TreeObject_merge mm store (fuel + 1) target input (.raw files mode)
        basePath preload).1 = some .badArgument ∧
    (TreeObject_merge mm store (fuel + 1) target input (.raw files mode)
        basePath preload).2.dirty = target.dirty ∧
    (TreeObject_merge mm store (fuel + 1) target input (.raw files mode)
        basePath preload).2.hash = target.hash ∧
    (TreeObject_merge mm store (fuel + 1) target input (.raw files mode)
        basePath preload).2.overlay = target.overlay := by
  have hopts : compileMergeOptions files mode = .error .badArgument := by
    unfold compileMergeOptions
    rw [if_pos ⟨hmo, hmr⟩]
  have hpres := hydrate_preserves store preload target target1 h1 hwf
  have hmrg : TreeObject_merge mm store (fuel + 1) target input (.raw files mode)
      basePath preload = (some .badArgument, target1) := by
    simp only [TreeObject_merge, h1, h2, hopts]
  rw [hmrg]
  exact ⟨rfl, hpres.1, hpres.2.1, hpres.2.2⟩

theorem merge_unknown_mode_fails_cleanly_witness :
    (TreeObject_merge (fun _ _ => false) [] 1 emptyTreeObj emptyTreeObj
        (.raw none "bogus") "." true).1 = some .badArgument ∧
    (TreeObject_merge (fun _ _ => false) [] 1 emptyTreeObj emptyTreeObj
        (.raw none "bogus") "." true).2.dirty = emptyTreeObj.dirty ∧
    (TreeObject_merge (fun _ _ => false) [] 1 emptyTreeObj emptyTreeObj
        (.raw none "bogus") "." true).2.hash = emptyTreeObj.hash ∧
    (TreeObject_merge (fun _ _ => false) [] 1 emptyTreeObj emptyTreeObj
        (.raw none "bogus") "." true).2.overlay = emptyTreeObj.overlay :=
  merge_unknown_mode_fails_cleanly (fun _ _ => false) [] 0 emptyTreeObj
    emptyTreeObj ⟨false, EMPTY_TREE_HASH, some [], []⟩
    ⟨false, EMPTY_TREE_HASH, some [], []⟩ none "bogus" "." true
    (by decide) (by decide) (fun _ => rfl) rfl rfl
